import Mathlib

/-!
Verification of `session2/fitting.py` (RL model fitting).

The Python source combines a trial-by-trial belief-update model, a
cross-entropy loss, a bound-constrained optimizer loop (optax L-BFGS),
multi-start selection via `jnp.nanargmin`, and a parameter-recovery
harness.  We embed each piece shallowly:

* exact numeric code (the belief recurrence, clipping, the loop and its
  stopping rule, index bookkeeping) is translated directly, over `ℚ`
  where the claim is exact arithmetic and over `ℝ` where `exp`/`log`
  appear;
* the parts supplied by external libraries or collaborators (the optax
  update direction, the gradient values cached in the optimizer state,
  `generate_schedule`, `simulate_RL_model`, the per-seed fit runs) are
  universally quantified oracles, so every theorem holds for any
  behaviour of those collaborators;
* IEEE special values, which `jnp.nanargmin` dispatches on, are embedded
  as an inductive type `Fl` with NaN / ±∞ / finite rational values and
  the IEEE comparison used by `argmin`.
-/

namespace RLFit

/-! ## Substring test (Python `'alpha' in name`) -/

/-- Whether the pattern (second argument) is a leading segment of the
first argument, on character lists. -/
def seqStartsWith : List Char → List Char → Bool
  | _, [] => true
  | [], _ :: _ => false
  | c :: cs, p :: ps => c == p && seqStartsWith cs ps

/-- Whether the pattern (second argument) occurs contiguously inside the
first argument, on character lists. -/
def seqContains : List Char → List Char → Bool
  | [], p => p.isEmpty
  | c :: cs, p => seqStartsWith (c :: cs) p || seqContains cs p

/-- Python substring containment `pat in s`. -/
def strContains (s pat : String) : Bool :=
  seqContains s.toList pat.toList

/-! ## `run_opt` : the constrained optimizer loop

Source, `fitting.py` lines 88-148.  Parameters are a flat dict of named
scalars (every dict passed to `run_opt` in this repository is flat, so
the recursive `apply_clip` path is just the key); we embed it as an
association list of `(name, value)` with rational values.  The optax
optimizer is abstracted by two oracles:

* `newVal k n` : value of field `n` produced by
  `optax.apply_updates(params, updates)` during the step executed with
  iteration counter `k` (before projection) - the optax update rule may
  compute it from anything, so it is universally quantified;
* `gradOf k` : the flattened gradient cached in the optimizer state
  after `k` update steps (`otu.tree_get(state, 'grad')`); `grad0` is the
  value stored by `opt.init`.

The state field `count` is the optax iteration counter, `0` after
`opt.init` and incremented by each `opt.update` call.
-/

/-- Bound specification dict `paramsClip`. -/
structure ParamsClip where
  alphaMin : ℚ
  alphaMax : ℚ
  betaMin : ℚ
  betaMax : ℚ
deriving DecidableEq

/-- Parameter dict: named scalar fields. -/
abbrev Params := List (String × ℚ)

/-- `jnp.clip(x, lo, hi) = min(max(x, lo), hi)`. -/
def clip (x lo hi : ℚ) : ℚ := min (max x lo) hi

/-- Inner `clip_param` of `project_params`: a field whose name contains
`alpha` is clipped to the alpha bounds, else one containing `beta` to
the beta bounds, else left unchanged. -/
def clip_param (pc : ParamsClip) (param : ℚ) (name : String) : ℚ :=
  if strContains name "alpha" then clip param pc.alphaMin pc.alphaMax
  else if strContains name "beta" then clip param pc.betaMin pc.betaMax
  else param

/-- `project_params`: clip every field of the dict according to its
name. -/
def project_params (pc : ParamsClip) (params : Params) : Params :=
  params.map (fun nx => (nx.1, clip_param pc nx.2 nx.1))

/-- Optimizer state visible to the stopping rule: iteration counter and
cached flattened gradient. -/
structure OptState where
  count : ℕ
  grad : List ℚ
deriving DecidableEq

/-- Loop carry `(params, state)`. -/
structure Carry where
  params : Params
  state : OptState
deriving DecidableEq

/-- Sum of squares of the flattened gradient (the square of
`otu.tree_l2_norm`). -/
def tree_l2_norm_sq (g : List ℚ) : ℚ :=
  (g.map (fun x => x ^ 2)).sum

/-- Euclidean norm `otu.tree_l2_norm` of the flattened gradient, as a
real number. -/
noncomputable def tree_l2_norm (g : List ℚ) : ℝ :=
  Real.sqrt ((g.map (fun x : ℚ => ((x : ℝ)) ^ 2)).sum)

/-- `continuing_criterion` (`fitting.py` lines 137-142):
`(iter_num == 0) | ((iter_num < max_iter) & (err >= tol))` where
`err = tree_l2_norm(grad)`.  The comparison `tol ≤ √(Σ gᵢ²)` is decided
without square roots as `tol ≤ 0 ∨ tol² ≤ Σ gᵢ²`; the lemma
`l2_ge_tol_iff` below proves this is exactly the norm comparison. -/
def continuing_criterion (max_iter : ℕ) (tol : ℚ) (s : OptState) : Bool :=
  (s.count == 0) ||
    (decide (s.count < max_iter) &&
      (decide (tol ≤ 0) || decide (tol ^ 2 ≤ tree_l2_norm_sq s.grad)))

/-- One iteration of the `jax.lax.while_loop` body `step`: compute the
optax update (oracle `newVal`), apply it, project back into bounds, and
advance the optimizer state. -/
def step (pc : ParamsClip) (newVal : ℕ → String → ℚ) (gradOf : ℕ → List ℚ)
    (c : Carry) : Carry :=
  { params := project_params pc (c.params.map (fun nx => (nx.1, newVal c.state.count nx.1)))
    state := { count := c.state.count + 1, grad := gradOf (c.state.count + 1) } }

/-- Fuel-indexed unfolding of `jax.lax.while_loop continuing_criterion
step`.  `run_opt` supplies fuel `max_iter + 1`, which
`run_opt_loop_stopped` proves is always enough for the loop to have
terminated (its criterion is false at the returned carry). -/
def runLoop (max_iter : ℕ) (tol : ℚ) (pc : ParamsClip)
    (newVal : ℕ → String → ℚ) (gradOf : ℕ → List ℚ) :
    ℕ → Carry → Carry
  | 0, c => c
  | fuel + 1, c =>
      if continuing_criterion max_iter tol c.state then
        runLoop max_iter tol pc newVal gradOf fuel (step pc newVal gradOf c)
      else c

/-- `run_opt` (`fitting.py` lines 88-148): run the while loop from
`(init_params, opt.init(init_params))`; the init state has iteration
counter `0` and cached gradient `grad0`. -/
def run_opt (init_params : Params) (newVal : ℕ → String → ℚ)
    (gradOf : ℕ → List ℚ) (grad0 : List ℚ) (max_iter : ℕ) (tol : ℚ)
    (pc : ParamsClip) : Carry :=
  runLoop max_iter tol pc newVal gradOf (max_iter + 1)
    { params := init_params, state := { count := 0, grad := grad0 } }

/-- Dispatch-aware bound containment: every field whose name contains
`alpha` lies in the alpha interval, and every field whose name contains
`beta` but not `alpha` lies in the beta interval.  This mirrors the
`if / elif` dispatch of `clip_param`. -/
def inBounds (pc : ParamsClip) (p : Params) : Prop :=
  ∀ nx ∈ p,
    (strContains nx.1 "alpha" = true →
      pc.alphaMin ≤ nx.2 ∧ nx.2 ≤ pc.alphaMax) ∧
    (strContains nx.1 "alpha" = false → strContains nx.1 "beta" = true →
      pc.betaMin ≤ nx.2 ∧ nx.2 ≤ pc.betaMax)

instance (pc : ParamsClip) (p : Params) : Decidable (inBounds pc p) := by
  unfold inBounds; infer_instance

/-- Bound containment exactly as the claim words it: every field whose
name contains `alpha` is inside the alpha interval AND every field whose
name contains `beta` is inside the beta interval (a field whose name
contains both words is required to be in both intervals).  Modelled
from the spec, for comparison with `inBounds`. -/
def inBoundsClaim (pc : ParamsClip) (p : Params) : Prop :=
  ∀ nx ∈ p,
    (strContains nx.1 "alpha" = true →
      pc.alphaMin ≤ nx.2 ∧ nx.2 ≤ pc.alphaMax) ∧
    (strContains nx.1 "beta" = true →
      pc.betaMin ≤ nx.2 ∧ nx.2 ≤ pc.betaMax)

instance (pc : ParamsClip) (p : Params) : Decidable (inBoundsClaim pc p) := by
  unfold inBoundsClaim; infer_instance

/-! ## `loss_RL_model` : belief trajectory and cross-entropy loss

Source, `fitting.py` lines 20-86.  The belief recurrence is exact ring
arithmetic, so it is stated over any ordered field (instantiated at `ℚ`
for executable witnesses and at `ℝ` inside the loss); the loss itself
uses `exp`/`log` and lives over `ℝ`. -/

/-- Default utility function `utility_fun(mag, prob) = mag * prob`. -/
def utility_fun (mag prob : ℝ) : ℝ := mag * prob

/-- Body of `compute_probOpt1`: one belief update
`probOpt1 + alpha * (opt1Rewarded[t] - probOpt1)`. -/
def compute_probOpt1 {K : Type} [CommRing K] (alpha carry r : K) : K :=
  carry + alpha * (r - carry)

/-- The output sequence of
`jax.lax.scan(compute_probOpt1, startingProb, arange(nTrials))`: the
post-update belief after each trial. -/
def scanProb {K : Type} [CommRing K] (alpha : K) : K → List K → List K
  | _, [] => []
  | carry, r :: rest =>
      compute_probOpt1 alpha carry r ::
        scanProb alpha (compute_probOpt1 alpha carry r) rest

/-- The belief trajectory fed to the utility function:
`jnp.concatenate([[startingProb], probOpt1[:-1]])` (`fitting.py` line
76) - the starting probability followed by all but the last scanned
belief. -/
def probOpt1_of {K : Type} [CommRing K] (alpha startingProb : K)
    (opt1Rewarded : List K) : List K :=
  startingProb :: (scanProb alpha startingProb opt1Rewarded).dropLast

/-- Modelled from the spec: the belief recurrence in the words of the
claim, `belief[0] = startingProb` and
`belief[t] = belief[t-1] + alpha * (rewarded1[t-1] - belief[t-1])`, to
be compared with the trajectory the code computes. -/
def belief_spec {K : Type} [CommRing K] (alpha startingProb : K)
    (rew : List K) : ℕ → K
  | 0 => startingProb
  | t + 1 =>
      belief_spec alpha startingProb rew t +
        alpha * (rew.getD t 0 - belief_spec alpha startingProb rew t)

/-- `jax.nn.log_sigmoid(x) = -softplus(-x) = -log(1 + exp(-x))`. -/
noncomputable def log_sigmoid (x : ℝ) : ℝ :=
  -Real.log (1 + Real.exp (-x))

/-- `optax.sigmoid_binary_cross_entropy(logits, labels)
= -labels * log_sigmoid(logits) - (1 - labels) * log_sigmoid(-logits)`
(optax's definition). -/
noncomputable def sigmoid_binary_cross_entropy (logits labels : ℝ) : ℝ :=
  -(labels * log_sigmoid logits) - (1 - labels) * log_sigmoid (-logits)

/-- `loss_RL_model` (`fitting.py` lines 25-86): belief trajectory,
elementwise utilities of the two options, logits
`beta * (utility1 - utility2)`, and the mean sigmoid binary
cross-entropy against `choice1`.  The utility function is the `U`
argument (default `utility_fun`), applied elementwise as the vectorized
code does. -/
noncomputable def loss_RL_model (opt1Rewarded magOpt1 magOpt2 choice1 : List ℝ)
    (alpha beta startingProb : ℝ) (U : ℝ → ℝ → ℝ) : ℝ :=
  let probOpt1 := probOpt1_of alpha startingProb opt1Rewarded
  let utility1 := List.zipWith U magOpt1 probOpt1
  let utility2 := List.zipWith U magOpt2 (probOpt1.map (fun p => 1 - p))
  let choice1Logits := List.zipWith (fun u1 u2 => beta * (u1 - u2)) utility1 utility2
  let lossTerms := List.zipWith sigmoid_binary_cross_entropy choice1Logits choice1
  lossTerms.sum / lossTerms.length

/-- Logistic sigmoid, as the spec words it. -/
noncomputable def sigmoid (x : ℝ) : ℝ :=
  1 / (1 + Real.exp (-x))

/-- Binary cross-entropy between a probability `p` and a label, as the
spec words it. -/
noncomputable def bce_of_prob (p label : ℝ) : ℝ :=
  -(label * Real.log p + (1 - label) * Real.log (1 - p))

/-- Modelled from the spec: the loss as the claim words it - the mean
over trials of the binary cross-entropy between
`sigmoid(beta * (U(mag1, probOpt1) - U(mag2, 1 - probOpt1)))` and
`choice1`.  To be compared with `loss_RL_model`. -/
noncomputable def loss_RL_spec (opt1Rewarded magOpt1 magOpt2 choice1 : List ℝ)
    (alpha beta startingProb : ℝ) (U : ℝ → ℝ → ℝ) : ℝ :=
  let probOpt1 := probOpt1_of alpha startingProb opt1Rewarded
  let utility1 := List.zipWith U magOpt1 probOpt1
  let utility2 := List.zipWith U magOpt2 (probOpt1.map (fun p => 1 - p))
  let choice1Logits := List.zipWith (fun u1 u2 => beta * (u1 - u2)) utility1 utility2
  let lossTerms := List.zipWith (fun l c => bce_of_prob (sigmoid l) c) choice1Logits choice1
  lossTerms.sum / lossTerms.length

/-! ## `fit_with_multiple_initial_values` / `fit_multiple_participants`

Source, `fitting.py` lines 270-363.  The per-seed fit
(`jax.vmap(fit_model)` over `jax.random.PRNGKey(i)`, `i = 0..nInits-1`)
is an oracle `runFit data i` returning that run's parameter vector and
loss; the parameter vector type is abstract so both supported model
variants are covered.  Losses are IEEE floats; only their ordering and
NaN-ness matter here, embedded as `Fl`.  The selection is
`jnp.nanargmin` followed by indexing each parameter field at the
selected position. -/

/-- An IEEE floating-point loss value: NaN, a finite value, or ±∞. -/
inductive Fl where
  | nan : Fl
  | finite : ℚ → Fl
  | pinf : Fl
  | ninf : Fl
deriving DecidableEq

/-- `isnan`. -/
def Fl.isNaN : Fl → Bool
  | .nan => true
  | _ => false

/-- IEEE strict less-than: every comparison with NaN is false, and
`-∞ < finite < +∞`. -/
def Fl.lt : Fl → Fl → Bool
  | .nan, _ => false
  | _, .nan => false
  | .ninf, .ninf => false
  | .ninf, _ => true
  | _, .ninf => false
  | .finite a, .finite b => decide (a < b)
  | .finite _, .pinf => true
  | .pinf, _ => false

/-- `jnp.argmin` on a NaN-free vector: index of the first occurrence of
the minimum (0 on the empty list). -/
def argmin : List Fl → ℕ
  | [] => 0
  | x :: xs => if Fl.lt (xs.getD (argmin xs) Fl.nan) x then argmin xs + 1 else 0

/-- The NaN mask step of `jnp.nanargmin`:
`a = where(isnan(a), inf, a)`. -/
def Fl.nanToPinf (x : Fl) : Fl :=
  if x.isNaN then Fl.pinf else x

/-- `jnp.nanargmin`: replace every NaN by `+∞`, take `argmin`, and
return `-1` when every entry was NaN (JAX's documented sentinel inside
`jit`, where no error can be raised). -/
def nanargmin (l : List Fl) : Int :=
  if l.all Fl.isNaN then -1
  else (argmin (l.map Fl.nanToPinf) : ℤ)

/-- JAX dynamic array indexing `arr[i]` with a traced integer index:
a negative index is wrapped by adding the axis length. -/
def jnp_take {P : Type} (l : List P) (dflt : P) (i : ℤ) : P :=
  if 0 ≤ i then l.getD i.toNat dflt else l.getD (l.length - (-i).toNat) dflt

/-- `get_params` (`fitting.py` lines 317-338): index the per-run
parameter vectors at `bestFit = jnp.nanargmin(loss)`.  (The source
indexes each field separately at `bestFit`, which is the same as
indexing the run.) -/
def get_params {P : Type} (dflt : P) (params : List P) (loss : List Fl) : P :=
  jnp_take params dflt (nanargmin loss)

/-- One subject's trial data (four equal-length columns). -/
structure TrialBatchQ where
  opt1Rewarded : List ℚ
  magOpt1 : List ℚ
  magOpt2 : List ℚ
  choice1 : List ℚ
deriving DecidableEq, Inhabited

/-- `fit_with_multiple_initial_values` (`fitting.py` lines 270-340):
run the vmapped fitter once per seed `0..nInits-1` on the (tiled) data
and keep the parameters of the run `nanargmin` selects. -/
def fit_with_multiple_initial_values {P : Type} (dflt : P)
    (runFit : TrialBatchQ → ℕ → P × Fl) (data : TrialBatchQ) (nInits : ℕ) : P :=
  get_params dflt (((List.range nInits).map (runFit data)).map (fun r => r.1))
    (((List.range nInits).map (runFit data)).map (fun r => r.2))

/-- `fit_multiple_participants` (`fitting.py` lines 342-363):
`jax.vmap` of the multi-start fit over the subject axis - each
subject's result is computed from that subject's data alone. -/
def fit_multiple_participants {P : Type} (dflt : P)
    (runFit : TrialBatchQ → ℕ → P × Fl) (datas : List TrialBatchQ)
    (nInits : ℕ) : List P :=
  datas.map (fun data => fit_with_multiple_initial_values dflt runFit data nInits)

/-! ## `run_paramterer_recovery`

Source, `fitting.py` lines 365-432.  `generate_schedule`,
`simulate_RL_model` and the uniform draws of `rng.random` are external
collaborators (spec section 6), embedded as oracles indexed by the
iteration counter where the source advances shared mutable state once
per iteration.  The per-seed fit runs backing the population fit are
the same `runFit` oracle as above. -/

/-- One row of the recovery table. -/
structure RecoveryRow where
  simulatedAlpha : ℚ
  simulatedBeta : ℚ
  recoveredAlpha : ℚ
  recoveredBeta : ℚ
deriving DecidableEq, Inhabited

/-- Oracles consumed by the recovery harness: `gen c` is the schedule
returned by the `generate_schedule` call made at iteration counter `c`,
`sim rew mag1 mag2 alpha beta` the simulator's
`(probOpt1, choiceProb1)`, and `draws c` the vector `rng.random(...)`
drawn at iteration counter `c`. -/
structure RecoveryOracles where
  gen : ℕ → List ℚ × List ℚ × List ℚ
  sim : List ℚ → List ℚ → List ℚ → ℚ → ℚ → List ℚ × List ℚ
  draws : ℕ → List ℚ

/-- Body of one iteration of the nested loop (`fitting.py` lines
406-421) at counter `c` with loop indices `a` (alpha) and `b` (beta):
generate a schedule, simulate the artificial participant at
`(simulatedAlphaRange[a], simulatedBetaRange[b])`, binarize the choice
probabilities against the uniform draws, and record the simulated grid
point together with the subject's data row. -/
def recovery_iter (o : RecoveryOracles) (simulatedAlphaRange simulatedBetaRange : List ℚ)
    (c a b : ℕ) : (ℚ × ℚ) × TrialBatchQ :=
  let sched := o.gen c
  let simOut := o.sim sched.1 sched.2.1 sched.2.2
    (simulatedAlphaRange.getD a 0) (simulatedBetaRange.getD b 0)
  let choice1 := List.zipWith (fun p u => if u < p then (1 : ℚ) else 0) simOut.2 (o.draws c)
  ((simulatedAlphaRange.getD a 0, simulatedBetaRange.getD b 0),
    ⟨sched.1, sched.2.1, sched.2.2, choice1⟩)

/-- The nested loop, threading the mutable `counter` exactly as the
source does: one iteration per `(a, b)` pair, counter incremented at
the end of each iteration. -/
def recovery_sim_go (o : RecoveryOracles) (simulatedAlphaRange simulatedBetaRange : List ℚ) :
    ℕ → List (ℕ × ℕ) → List ((ℚ × ℚ) × TrialBatchQ)
  | _, [] => []
  | c, ab :: rest =>
      recovery_iter o simulatedAlphaRange simulatedBetaRange c ab.1 ab.2 ::
        recovery_sim_go o simulatedAlphaRange simulatedBetaRange (c + 1) rest

/-- The `(a, b)` pairs visited by `for alpha in range(A): for beta in
range(B):`, in iteration order. -/
def loopPairs (A B : ℕ) : List (ℕ × ℕ) :=
  (List.range A).flatMap (fun a => (List.range B).map (fun b => (a, b)))

/-- The simulation phase of `run_paramterer_recovery`: the recorded
grid points and stacked subject rows, in counter order starting at 0. -/
def recovery_sim (o : RecoveryOracles) (simulatedAlphaRange simulatedBetaRange : List ℚ) :
    List ((ℚ × ℚ) × TrialBatchQ) :=
  recovery_sim_go o simulatedAlphaRange simulatedBetaRange 0
    (loopPairs simulatedAlphaRange.length simulatedBetaRange.length)

/-- `run_paramterer_recovery` (`fitting.py` lines 365-432): simulate
one subject per grid point, fit the whole stack with
`fit_multiple_participants`, and merge the recovered `alpha`/`beta`
columns into the table next to the simulated ones. -/
def run_paramterer_recovery (o : RecoveryOracles)
    (runFit : TrialBatchQ → ℕ → (ℚ × ℚ) × Fl)
    (simulatedAlphaRange simulatedBetaRange : List ℚ) (nInits : ℕ) :
    List RecoveryRow :=
  let simData := recovery_sim o simulatedAlphaRange simulatedBetaRange
  let params := fit_multiple_participants (0, 0) runFit (simData.map (fun r => r.2)) nInits
  List.zipWith (fun sd p => ⟨sd.1.1, sd.1.2, p.1, p.2⟩) simData params

/-! ## Lemmas about the optimizer loop -/

/-- A clip into a nonempty interval lands inside it. -/
lemma clip_mem_of_le {x lo hi : ℚ} (h : lo ≤ hi) :
    lo ≤ clip x lo hi ∧ clip x lo hi ≤ hi := by
  unfold clip
  exact ⟨le_min (le_max_right x lo) h, min_le_right _ _⟩

/-- The projection preserves dispatch-aware bound containment: each
post-step field is `clip_param` of something, at a name whose
applicable interval is nonempty because the same-named pre-step field
lay inside it. -/
lemma step_preserves_inBounds (pc : ParamsClip) (nv : ℕ → String → ℚ)
    (go : ℕ → List ℚ) (c : Carry) (h : inBounds pc c.params) :
    inBounds pc (step pc nv go c).params := by
  intro nx hnx
  simp only [step, project_params, List.map_map, List.mem_map,
    Function.comp] at hnx
  obtain ⟨⟨n, x0⟩, hmem, rfl⟩ := hnx
  have hold := h (n, x0) hmem
  dsimp only at hold ⊢
  constructor
  · intro ha
    unfold clip_param
    rw [if_pos ha]
    exact clip_mem_of_le (le_trans (hold.1 ha).1 (hold.1 ha).2)
  · intro ha0 hb
    unfold clip_param
    rw [if_neg (show ¬ strContains n "alpha" = true by simp [ha0]), if_pos hb]
    exact clip_mem_of_le (le_trans (hold.2 ha0 hb).1 (hold.2 ha0 hb).2)

/-- The loop preserves dispatch-aware bound containment. -/
lemma runLoop_preserves_inBounds (m : ℕ) (tol : ℚ) (pc : ParamsClip)
    (nv : ℕ → String → ℚ) (go : ℕ → List ℚ) :
    ∀ (fuel : ℕ) (c : Carry), inBounds pc c.params →
      inBounds pc (runLoop m tol pc nv go fuel c).params := by
  intro fuel
  induction fuel with
  | zero => intro c h; exact h
  | succ f ih =>
      intro c h
      unfold runLoop
      by_cases hc : continuing_criterion m tol c.state = true
      · simp only [hc, if_true]
        exact ih _ (step_preserves_inBounds pc nv go c h)
      · simp only [hc, if_false]
        exact h

/-- Decided form of `err ≥ tol` agrees with the Euclidean-norm
comparison over `ℝ`. -/
lemma l2_ge_tol_iff (g : List ℚ) (tol : ℚ) :
    (tol ≤ 0 ∨ tol ^ 2 ≤ tree_l2_norm_sq g) ↔ (tol : ℝ) ≤ tree_l2_norm g := by
  have hcast : ((tree_l2_norm_sq g : ℚ) : ℝ) = (g.map (fun x : ℚ => ((x : ℝ)) ^ 2)).sum := by
    induction g with
    | nil => simp [tree_l2_norm_sq]
    | cons a l ih =>
        simp only [tree_l2_norm_sq, List.map_cons, List.sum_cons] at ih ⊢
        rw [Rat.cast_add, Rat.cast_pow, ih]
  have hS : (0 : ℝ) ≤ (g.map (fun x : ℚ => ((x : ℝ)) ^ 2)).sum := by
    apply List.sum_nonneg
    intro y hy
    obtain ⟨x, _, rfl⟩ := List.mem_map.mp hy
    positivity
  by_cases htol : tol ≤ 0
  · constructor
    · intro _
      calc ((tol : ℝ)) ≤ 0 := by exact_mod_cast htol
        _ ≤ tree_l2_norm g := Real.sqrt_nonneg _
    · intro _; exact Or.inl htol
  · have htolpos : (0 : ℝ) < (tol : ℝ) := by
      have : (0 : ℚ) < tol := lt_of_not_le htol
      exact_mod_cast this
    constructor
    · intro hor
      rcases hor with h0 | hsq
      · exact absurd h0 htol
      · unfold tree_l2_norm
        rw [Real.le_sqrt (le_of_lt htolpos) hS]
        calc ((tol : ℝ)) ^ 2 = ((tol ^ 2 : ℚ) : ℝ) := by push_cast; ring
          _ ≤ ((tree_l2_norm_sq g : ℚ) : ℝ) := by exact_mod_cast hsq
          _ = _ := hcast
    · intro hle
      refine Or.inr ?_
      unfold tree_l2_norm at hle
      rw [Real.le_sqrt (le_of_lt htolpos) hS] at hle
      have : ((tol ^ 2 : ℚ) : ℝ) ≤ ((tree_l2_norm_sq g : ℚ) : ℝ) := by
        rw [hcast]
        calc ((tol ^ 2 : ℚ) : ℝ) = ((tol : ℝ)) ^ 2 := by push_cast; ring
          _ ≤ _ := hle
      exact_mod_cast this

/-- Characterization of the continuation test as the spec states it. -/
lemma continuing_criterion_true_iff (m : ℕ) (tol : ℚ) (s : OptState) :
    continuing_criterion m tol s = true ↔
      (s.count = 0 ∨ (s.count < m ∧ (tol : ℝ) ≤ tree_l2_norm s.grad)) := by
  unfold continuing_criterion
  rw [Bool.or_eq_true, Bool.and_eq_true, Bool.or_eq_true]
  simp only [beq_iff_eq, decide_eq_true_eq]
  constructor
  · rintro (h0 | ⟨hlt, hor⟩)
    · exact Or.inl h0
    · exact Or.inr ⟨hlt, (l2_ge_tol_iff s.grad tol).mp hor⟩
  · rintro (h0 | ⟨hlt, hne⟩)
    · exact Or.inl h0
    · exact Or.inr ⟨hlt, (l2_ge_tol_iff s.grad tol).mpr hne⟩

/-- Stopping form of the continuation test. -/
lemma continuing_criterion_false_iff (m : ℕ) (tol : ℚ) (s : OptState) :
    continuing_criterion m tol s = false ↔
      (s.count ≠ 0 ∧ (m ≤ s.count ∨ tree_l2_norm s.grad < (tol : ℝ))) := by
  rw [← Bool.not_eq_true, continuing_criterion_true_iff]
  push_neg
  constructor
  · rintro ⟨h0, h1⟩
    refine ⟨h0, ?_⟩
    by_cases hlt : s.count < m
    · exact Or.inr (h1 hlt)
    · exact Or.inl (Nat.le_of_not_lt hlt)
  · rintro ⟨h0, hor⟩
    refine ⟨h0, fun hlt => ?_⟩
    rcases hor with hm | hg
    · exact absurd hlt (Nat.not_lt.mpr hm)
    · exact hg

/-- The loop never decreases the iteration counter. -/
lemma runLoop_count_mono (m : ℕ) (tol : ℚ) (pc : ParamsClip)
    (nv : ℕ → String → ℚ) (go : ℕ → List ℚ) :
    ∀ (fuel : ℕ) (c : Carry),
      c.state.count ≤ (runLoop m tol pc nv go fuel c).state.count := by
  intro fuel
  induction fuel with
  | zero => intro c; exact le_refl _
  | succ f ih =>
      intro c
      unfold runLoop
      by_cases hc : continuing_criterion m tol c.state = true
      · simp only [hc, if_true]
        exact le_trans (Nat.le_succ _) (ih (step pc nv go c))
      · simp only [hc, if_false]
        exact le_refl _

/-- Every step the loop takes starts from a state passing the
continuation test, so the counter never exceeds `max 1 max_iter`. -/
lemma runLoop_count_le (m : ℕ) (tol : ℚ) (pc : ParamsClip)
    (nv : ℕ → String → ℚ) (go : ℕ → List ℚ) :
    ∀ (fuel : ℕ) (c : Carry), c.state.count ≤ max 1 m →
      (runLoop m tol pc nv go fuel c).state.count ≤ max 1 m := by
  intro fuel
  induction fuel with
  | zero => intro c h; exact h
  | succ f ih =>
      intro c h
      unfold runLoop
      by_cases hc : continuing_criterion m tol c.state = true
      · simp only [hc, if_true]
        apply ih
        have := (continuing_criterion_true_iff m tol c.state).mp hc
        show c.state.count + 1 ≤ max 1 m
        rcases this with h0 | ⟨hlt, _⟩
        · rw [h0]; exact le_max_left 1 m
        · exact le_trans hlt (le_max_right 1 m)
      · simp only [hc, if_false]
        exact h

/-- With enough fuel, the returned carry fails the continuation test:
the `jax.lax.while_loop` has genuinely terminated. -/
lemma runLoop_stopped (m : ℕ) (tol : ℚ) (pc : ParamsClip)
    (nv : ℕ → String → ℚ) (go : ℕ → List ℚ) :
    ∀ (fuel : ℕ) (c : Carry), 1 ≤ c.state.count → m ≤ c.state.count + fuel →
      continuing_criterion m tol (runLoop m tol pc nv go fuel c).state = false := by
  intro fuel
  induction fuel with
  | zero =>
      intro c h1 hm
      show continuing_criterion m tol c.state = false
      rw [continuing_criterion_false_iff]
      exact ⟨by omega, Or.inl (by omega)⟩
  | succ f ih =>
      intro c h1 hm
      unfold runLoop
      by_cases hc : continuing_criterion m tol c.state = true
      · simp only [hc, if_true]
        exact ih (step pc nv go c)
          (by change 1 ≤ c.state.count + 1; omega)
          (by change m ≤ c.state.count + 1 + f; omega)
      · simp only [hc, if_false]
        simpa using hc

/-! ## Claim C1 -/

/-- C1 (amended).  For every bound specification, every optax update
behaviour, every `max_iter` and `tol`, and every initial parameter dict
whose fields lie within their dispatch bounds, the dict `run_opt`
returns has every field whose name contains `alpha` inside
`[alphaMin, alphaMax]` and every field whose name contains `beta` but
not `alpha` inside `[betaMin, betaMax]`; the hard clip runs after every
optimizer step, so the containment is preserved by each individual
`step` as well. -/
theorem run_opt_params_stay_in_bounds (pc : ParamsClip)
    (nv : ℕ → String → ℚ) (go : ℕ → List ℚ) (g0 : List ℚ)
    (max_iter : ℕ) (tol : ℚ) (init : Params) (h : inBounds pc init) :
    inBounds pc (run_opt init nv go g0 max_iter tol pc).params ∧
      ∀ c : Carry, inBounds pc c.params → inBounds pc (step pc nv go c).params :=
  ⟨runLoop_preserves_inBounds max_iter tol pc nv go (max_iter + 1) _ h,
    fun c hc => step_preserves_inBounds pc nv go c hc⟩

/-- C1 witness: a concrete run with fields `alpha` and `beta`, unit
bounds, an update rule pushing both fields far outside the bounds, and
`max_iter = 3`. -/
theorem run_opt_params_stay_in_bounds_witness :
    inBounds ⟨0, 1, 0, 1⟩ [("alpha", 0), ("beta", 1)] ∧
      inBounds ⟨0, 1, 0, 1⟩
        (run_opt [("alpha", 0), ("beta", 1)] (fun _ _ => -5)
          (fun _ => [1]) [1] 3 0 ⟨0, 1, 0, 1⟩).params :=
  ⟨by decide,
    (run_opt_params_stay_in_bounds ⟨0, 1, 0, 1⟩ (fun _ _ => -5)
      (fun _ => [1]) [1] 3 0 [("alpha", 0), ("beta", 1)] (by decide)).1⟩

/-- C1 counterexample to the claim as stated.  The claim requires every
field whose name contains `beta` to end inside the beta bounds, but
`clip_param` dispatches on `alpha` first: a field named `alphabeta`
(which contains both words, and initially lies inside both intervals)
is clipped only to the alpha bounds, and one step of a run can leave it
at `0`, outside the beta interval `[1, 2]`. -/
theorem run_opt_claim_bounds_counterexample :
    inBoundsClaim ⟨0, 1, 1, 2⟩ [("alphabeta", 1)] ∧
      ¬ inBoundsClaim ⟨0, 1, 1, 2⟩
        (run_opt [("alphabeta", 1)] (fun _ _ => -5) (fun _ => [1]) [1]
          1 0 ⟨0, 1, 1, 2⟩).params := by
  decide

/-! ## Claim C2 -/

/-- C2.  The loop continues exactly when the iteration count is `0`, or
it is below `max_iter` and the Euclidean norm of the flattened gradient
is at least `tol`; it stops exactly when the count is nonzero and
(count `≥ max_iter` or the norm is `< tol`).  Each step increments the
count by one, at least one step is always taken (final count `≥ 1`,
whatever the initial gradient is), and the loop has terminated after at
most `max (1, max_iter)` steps: the returned count is at most
`max 1 max_iter` and the continuation test is false at the returned
state. -/
theorem run_opt_continuing_criterion_and_termination
    (max_iter : ℕ) (tol : ℚ) (pc : ParamsClip) (nv : ℕ → String → ℚ)
    (go : ℕ → List ℚ) (g0 : List ℚ) (init : Params) :
    (∀ s : OptState, continuing_criterion max_iter tol s = true ↔
      (s.count = 0 ∨ (s.count < max_iter ∧ (tol : ℝ) ≤ tree_l2_norm s.grad))) ∧
    (∀ s : OptState, continuing_criterion max_iter tol s = false ↔
      (s.count ≠ 0 ∧ (max_iter ≤ s.count ∨ tree_l2_norm s.grad < (tol : ℝ)))) ∧
    (∀ c : Carry, (step pc nv go c).state.count = c.state.count + 1) ∧
    1 ≤ (run_opt init nv go g0 max_iter tol pc).state.count ∧
    (run_opt init nv go g0 max_iter tol pc).state.count ≤ max 1 max_iter ∧
    continuing_criterion max_iter tol
      (run_opt init nv go g0 max_iter tol pc).state = false := by
  have hstart : continuing_criterion max_iter tol
      { count := 0, grad := g0 } = true := by
    simp [continuing_criterion]
  have hsucc : ∀ (fuel : ℕ) (c : Carry),
      runLoop max_iter tol pc nv go (fuel + 1) c =
        if continuing_criterion max_iter tol c.state then
          runLoop max_iter tol pc nv go fuel (step pc nv go c)
        else c := fun _ _ => rfl
  have hunfold : run_opt init nv go g0 max_iter tol pc =
      runLoop max_iter tol pc nv go max_iter
        (step pc nv go { params := init, state := { count := 0, grad := g0 } }) := by
    unfold run_opt
    rw [hsucc, if_pos hstart]
  refine ⟨continuing_criterion_true_iff max_iter tol,
    continuing_criterion_false_iff max_iter tol, fun c => rfl, ?_, ?_, ?_⟩
  · rw [hunfold]
    exact le_trans (by change 1 ≤ (0 : ℕ) + 1; omega)
      (runLoop_count_mono max_iter tol pc nv go max_iter _)
  · rw [hunfold]
    exact runLoop_count_le max_iter tol pc nv go max_iter _
      (by change (0 : ℕ) + 1 ≤ max 1 max_iter; exact le_max_left 1 max_iter)
  · rw [hunfold]
    exact runLoop_stopped max_iter tol pc nv go max_iter _
      (by change 1 ≤ (0 : ℕ) + 1; omega)
      (by change max_iter ≤ (0 : ℕ) + 1 + max_iter; omega)

/-! ## Lemmas about the belief trajectory -/

/-- Peeling one trial off the front of the spec recurrence. -/
lemma belief_spec_cons {K : Type} [CommRing K] (alpha p0 r : K)
    (rest : List K) :
    ∀ t : ℕ, belief_spec alpha p0 (r :: rest) (t + 1) =
      belief_spec alpha (compute_probOpt1 alpha p0 r) rest t := by
  intro t
  induction t with
  | zero => simp [belief_spec, compute_probOpt1]
  | succ t ih =>
      show belief_spec alpha p0 (r :: rest) (t + 1) +
          alpha * ((r :: rest).getD (t + 1) 0 - belief_spec alpha p0 (r :: rest) (t + 1)) = _
      rw [ih, List.getD_cons_succ]
      rfl

/-- The scanned beliefs satisfy the spec recurrence: the `t`-th scan
output is the belief after `t + 1` updates. -/
lemma scanProb_getD {K : Type} [CommRing K] (alpha : K) :
    ∀ (rew : List K) (p0 : K) (t : ℕ), t < rew.length →
      (scanProb alpha p0 rew).getD t 0 = belief_spec alpha p0 rew (t + 1) := by
  intro rew
  induction rew with
  | nil => intro p0 t ht; exact absurd ht (by simp)
  | cons r rest ih =>
      intro p0 t ht
      cases t with
      | zero => simp [scanProb, belief_spec, compute_probOpt1]
      | succ t =>
          have ht2 : t < rest.length := by
            simpa [Nat.succ_lt_succ_iff] using ht
          show (scanProb alpha (compute_probOpt1 alpha p0 r) rest).getD t 0 = _
          rw [ih (compute_probOpt1 alpha p0 r) t ht2, belief_spec_cons]

/-- `dropLast` agrees with the original list at every index it keeps. -/
lemma dropLast_getD {K : Type} (d : K) :
    ∀ (l : List K) (i : ℕ), i < l.length - 1 →
      l.dropLast.getD i d = l.getD i d := by
  intro l i hi
  have hlen : i < l.dropLast.length := by simpa using hi
  have hlen2 : i < l.length := by omega
  rw [List.getD_eq_getElem?_getD, List.getD_eq_getElem?_getD,
    List.getElem?_eq_getElem hlen, List.getElem?_eq_getElem hlen2]
  exact congrArg (fun x => (some x).getD d) (List.getElem_dropLast l i hlen)

/-! ## Claim C3 -/

/-- C3 (amended).  The trajectory `probOpt1` that `loss_RL_model`
computes and feeds to the utility function satisfies
`probOpt1[0] = startingProb` and, for `1 ≤ t < T`,
`probOpt1[t] = belief[t]` where `belief` is the spec recurrence
`belief[0] = startingProb`,
`belief[t] = belief[t-1] + alpha * (rewarded1[t-1] - belief[t-1])`: the
belief entering trial `t` is the post-update belief from trial `t - 1`
and never depends on trial `t`'s own outcome. -/
theorem loss_RL_model_belief_trajectory {K : Type} [CommRing K]
    (alpha startingProb : K) (rew : List K) :
    (probOpt1_of alpha startingProb rew).getD 0 0 = startingProb ∧
      ∀ t : ℕ, 1 ≤ t → t < rew.length →
        (probOpt1_of alpha startingProb rew).getD t 0 =
          belief_spec alpha startingProb rew t := by
  refine ⟨rfl, ?_⟩
  intro t h1 ht
  obtain ⟨s, rfl⟩ : ∃ s, t = s + 1 := ⟨t - 1, by omega⟩
  show (scanProb alpha startingProb rew).dropLast.getD s 0 = _
  have hslen : s < rew.length - 1 := by omega
  have hscan : (scanProb alpha startingProb rew).length = rew.length := by
    clear hslen ht
    induction rew generalizing startingProb with
    | nil => rfl
    | cons r rest ih => simp [scanProb, ih]
  rw [dropLast_getD 0 _ s (by rw [hscan]; exact hslen)]
  exact scanProb_getD alpha rew startingProb s (by omega)

/-- C3 counterexample to the claim as stated.  Reading the claim
literally, `probOpt1[t] = belief[t-1]` with
`belief[t] = belief[t-1] + alpha * (rewarded1[t-1] - belief[t-1])` and
some base value `belief[0]`: no choice of base value matches the code.
With `alpha = 1`, `startingProb = 0`, `rewarded1 = [1, 0, 0]`, the code
computes `probOpt1 = [0, 1, 0]`, but the claim's reading forces
`probOpt1[2] = belief[1] = rewarded1[0] = 1 ≠ 0`. -/
theorem loss_RL_model_belief_lag_counterexample :
    ¬ ∃ b0 : ℚ, ∀ t : ℕ, 1 ≤ t → t < 3 →
      (probOpt1_of (1 : ℚ) 0 [1, 0, 0]).getD t 0 =
        belief_spec (1 : ℚ) b0 [1, 0, 0] (t - 1) := by
  rintro ⟨b0, h⟩
  have h2 := h 2 (by omega) (by omega)
  simp [probOpt1_of, scanProb, compute_probOpt1, belief_spec] at h2

/-! ## Claim C7 -/

/-- Each belief update is a convex combination of the previous belief
and the observed outcome, so it stays in the unit interval. -/
lemma compute_probOpt1_mem_unit {K : Type} [LinearOrderedCommRing K]
    {alpha p r : K} (ha0 : 0 ≤ alpha) (ha1 : alpha ≤ 1)
    (hp0 : 0 ≤ p) (hp1 : p ≤ 1) (hr0 : 0 ≤ r) (hr1 : r ≤ 1) :
    0 ≤ compute_probOpt1 alpha p r ∧ compute_probOpt1 alpha p r ≤ 1 := by
  unfold compute_probOpt1
  constructor <;> nlinarith

/-- Every scanned belief stays in the unit interval. -/
lemma scanProb_mem_unit {K : Type} [LinearOrderedCommRing K]
    {alpha : K} (ha0 : 0 ≤ alpha) (ha1 : alpha ≤ 1) :
    ∀ (rew : List K) (p0 : K), 0 ≤ p0 → p0 ≤ 1 →
      (∀ r ∈ rew, r = 0 ∨ r = 1) →
      ∀ x ∈ scanProb alpha p0 rew, 0 ≤ x ∧ x ≤ 1 := by
  intro rew
  induction rew with
  | nil => intro p0 _ _ _ x hx; exact absurd hx (by simp [scanProb])
  | cons r rest ih =>
      intro p0 hp0 hp1 hr x hx
      have hrmem := hr r (List.mem_cons_self r rest)
      have hr0 : 0 ≤ r := by rcases hrmem with h | h <;> simp [h]
      have hr1 : r ≤ 1 := by rcases hrmem with h | h <;> simp [h]
      have hnext := compute_probOpt1_mem_unit ha0 ha1 hp0 hp1 hr0 hr1
      rcases List.mem_cons.mp hx with rfl | hx2
      · exact hnext
      · exact ih (compute_probOpt1 alpha p0 r) hnext.1 hnext.2
          (fun y hy => hr y (List.mem_cons_of_mem r hy)) x hx2

/-- C7.  For `alpha ∈ [0,1]`, a starting probability in `[0,1]`, and a
`rewarded1` sequence with entries in `{0,1}`, every element of the
belief trajectory `probOpt1` computed inside `loss_RL_model` lies in
`[0,1]`. -/
theorem probOpt1_of_mem_unit_interval {K : Type} [LinearOrderedCommRing K]
    (alpha startingProb : K) (rew : List K)
    (ha0 : 0 ≤ alpha) (ha1 : alpha ≤ 1)
    (hp0 : 0 ≤ startingProb) (hp1 : startingProb ≤ 1)
    (hr : ∀ r ∈ rew, r = 0 ∨ r = 1) :
    ∀ x ∈ probOpt1_of alpha startingProb rew, 0 ≤ x ∧ x ≤ 1 := by
  intro x hx
  rcases List.mem_cons.mp hx with rfl | hx2
  · exact ⟨hp0, hp1⟩
  · exact scanProb_mem_unit ha0 ha1 rew startingProb hp0 hp1 hr x
      ((List.dropLast_sublist _).subset hx2)

/-- C7 witness: `alpha = 1`, `startingProb = 0`, `rewarded1 = [0, 1]`. -/
theorem probOpt1_of_mem_unit_interval_witness :
    (∀ r ∈ [(0 : ℚ), 1], r = 0 ∨ r = 1) ∧
      ∀ x ∈ probOpt1_of (1 : ℚ) 0 [0, 1], 0 ≤ x ∧ x ≤ 1 :=
  ⟨by simp,
    probOpt1_of_mem_unit_interval (1 : ℚ) 0 [0, 1] zero_le_one (le_refl 1)
      (le_refl 0) zero_le_one (by simp)⟩

/-! ## Lemmas about the cross-entropy -/

/-- `log_sigmoid` is the log of the logistic sigmoid. -/
lemma log_sigmoid_eq (x : ℝ) : log_sigmoid x = Real.log (sigmoid x) := by
  unfold log_sigmoid sigmoid
  rw [one_div, Real.log_inv]

/-- The sigmoid complement identity `1 - σ(x) = σ(-x)`. -/
lemma one_sub_sigmoid (x : ℝ) : 1 - sigmoid x = sigmoid (-x) := by
  unfold sigmoid
  rw [neg_neg]
  have ha : (0 : ℝ) < 1 + Real.exp (-x) := by positivity
  have hb : (0 : ℝ) < 1 + Real.exp x := by positivity
  have key : Real.exp (-x) * Real.exp x = 1 := by
    rw [← Real.exp_add, neg_add_cancel, Real.exp_zero]
  rw [one_sub_div ha.ne', add_sub_cancel_left, div_eq_div_iff ha.ne' hb.ne']
  linear_combination key

/-- optax's per-trial cross-entropy is exactly the binary cross-entropy
between `sigmoid(logit)` and the label. -/
lemma sigmoid_binary_cross_entropy_eq_bce (l c : ℝ) :
    sigmoid_binary_cross_entropy l c = bce_of_prob (sigmoid l) c := by
  unfold sigmoid_binary_cross_entropy bce_of_prob
  rw [one_sub_sigmoid l, ← log_sigmoid_eq l, ← log_sigmoid_eq (-l)]
  ring

/-- `log_sigmoid` is nonpositive. -/
lemma log_sigmoid_nonpos (x : ℝ) : log_sigmoid x ≤ 0 := by
  unfold log_sigmoid
  have h : (0 : ℝ) ≤ Real.log (1 + Real.exp (-x)) :=
    Real.log_nonneg (le_add_of_nonneg_right (Real.exp_pos (-x)).le)
  linarith

/-- Each per-trial cross-entropy term is nonnegative for 0/1 labels. -/
lemma sigmoid_binary_cross_entropy_nonneg (l c : ℝ) (hc : c = 0 ∨ c = 1) :
    0 ≤ sigmoid_binary_cross_entropy l c := by
  have h1 := log_sigmoid_nonpos l
  have h2 := log_sigmoid_nonpos (-l)
  unfold sigmoid_binary_cross_entropy
  rcases hc with rfl | rfl <;> nlinarith

/-- A member of a `zipWith` comes from members of the two lists. -/
lemma exists_of_mem_zipWith {α β γ : Type} {f : α → β → γ} :
    ∀ {l1 : List α} {l2 : List β} {x : γ}, x ∈ List.zipWith f l1 l2 →
      ∃ a ∈ l1, ∃ b ∈ l2, x = f a b := by
  intro l1
  induction l1 with
  | nil => intro l2 x hx; simp at hx
  | cons a t ih =>
      intro l2 x hx
      cases l2 with
      | nil => simp at hx
      | cons b s =>
          rcases List.mem_cons.mp hx with rfl | hx2
          · exact ⟨a, List.mem_cons_self a t, b, List.mem_cons_self b s, rfl⟩
          · obtain ⟨a2, ha2, b2, hb2, rfl⟩ := ih hx2
            exact ⟨a2, List.mem_cons_of_mem a ha2, b2, List.mem_cons_of_mem b hb2, rfl⟩

/-! ## Claim C4 -/

/-- C4.  For equal-length data with at least one trial and 0/1 choices,
`loss_RL_model` returns exactly the mean over trials of the binary
cross-entropy between
`sigmoid(beta * (U(mag1, probOpt1) - U(mag2, 1 - probOpt1)))` and
`choice1`, and this value is nonnegative.  (Side-effect freedom is
inherent in the embedding: the loss is a pure function of its
arguments.) -/
theorem loss_RL_model_is_mean_bce (rew m1 m2 ch : List ℝ)
    (alpha beta p0 : ℝ) (U : ℝ → ℝ → ℝ)
    (hlen1 : m1.length = rew.length) (hlen2 : m2.length = rew.length)
    (hlen3 : ch.length = rew.length) (hT : 1 ≤ rew.length)
    (hc : ∀ c ∈ ch, c = 0 ∨ c = 1) :
    loss_RL_model rew m1 m2 ch alpha beta p0 U =
        loss_RL_spec rew m1 m2 ch alpha beta p0 U ∧
      0 ≤ loss_RL_model rew m1 m2 ch alpha beta p0 U := by
  have hfun : sigmoid_binary_cross_entropy =
      fun l c => bce_of_prob (sigmoid l) c := by
    funext l c
    exact sigmoid_binary_cross_entropy_eq_bce l c
  constructor
  · simp only [loss_RL_model, loss_RL_spec]
    rw [hfun]
  · simp only [loss_RL_model]
    apply div_nonneg
    · apply List.sum_nonneg
      intro x hx
      obtain ⟨l, _, c, hcm, rfl⟩ := exists_of_mem_zipWith hx
      exact sigmoid_binary_cross_entropy_nonneg l c (hc c hcm)
    · exact Nat.cast_nonneg _

/-- C4 witness: one trial, `rewarded1 = [0]`, `mag1 = [1]`, `mag2 = [0]`,
`choice1 = [1]`, multiplicative utility. -/
theorem loss_RL_model_is_mean_bce_witness :
    (∀ c ∈ [(1 : ℝ)], c = 0 ∨ c = 1) ∧
      loss_RL_model [0] [1] [0] [1] 1 0 0 utility_fun =
          loss_RL_spec [0] [1] [0] [1] 1 0 0 utility_fun ∧
        0 ≤ loss_RL_model [0] [1] [0] [1] 1 0 0 utility_fun :=
  ⟨by simp,
    loss_RL_model_is_mean_bce [0] [1] [0] [1] 1 0 0 utility_fun rfl rfl rfl
      (le_refl 1) (by simp)⟩

/-! ## Claim C8 -/

/-- Flipping the sign of the logit and complementing the label leaves
the per-trial cross-entropy unchanged. -/
lemma sigmoid_binary_cross_entropy_flip (l c : ℝ) :
    sigmoid_binary_cross_entropy (-l) (1 - c) = sigmoid_binary_cross_entropy l c := by
  unfold sigmoid_binary_cross_entropy
  rw [neg_neg]
  ring

/-- C8.  For every data tuple, parameters and utility function (in
particular for every TrialBatch with 0/1 choices),
`loss_RL_model` is invariant under simultaneously flipping the sign of
`beta` and replacing `choice1` by `1 - choice1`. -/
theorem loss_RL_model_beta_choice_flip (rew m1 m2 ch : List ℝ)
    (alpha beta p0 : ℝ) (U : ℝ → ℝ → ℝ) :
    loss_RL_model rew m1 m2 (ch.map (fun c => 1 - c)) alpha (-beta) p0 U =
      loss_RL_model rew m1 m2 ch alpha beta p0 U := by
  simp only [loss_RL_model]
  have hlog :
      List.zipWith (fun u1 u2 => -beta * (u1 - u2))
          (List.zipWith U m1 (probOpt1_of alpha p0 rew))
          (List.zipWith U m2 ((probOpt1_of alpha p0 rew).map (fun p => 1 - p))) =
        (List.zipWith (fun u1 u2 => beta * (u1 - u2))
          (List.zipWith U m1 (probOpt1_of alpha p0 rew))
          (List.zipWith U m2 ((probOpt1_of alpha p0 rew).map (fun p => 1 - p)))).map
            (fun z => -z) := by
    rw [List.map_zipWith]
    congr 1
    funext u1 u2
    ring
  rw [hlog, List.zipWith_map]
  have hterm : (fun l c => sigmoid_binary_cross_entropy (-l) (1 - c)) =
      sigmoid_binary_cross_entropy := by
    funext l c
    exact sigmoid_binary_cross_entropy_flip l c
  rw [hterm]

/-! ## Claim C10 -/

/-- The scan over an appended block is the scan over the first block
followed by the scan over the second from the folded carry. -/
lemma scanProb_append {K : Type} [CommRing K] (alpha : K) :
    ∀ (xs ys : List K) (p0 : K),
      scanProb alpha p0 (xs ++ ys) =
        scanProb alpha p0 xs ++
          scanProb alpha (xs.foldl (fun b r => compute_probOpt1 alpha b r) p0) ys := by
  intro xs
  induction xs with
  | nil => intro ys p0; rfl
  | cons r rest ih =>
      intro ys p0
      show compute_probOpt1 alpha p0 r :: scanProb alpha _ (rest ++ ys) = _
      rw [ih ys (compute_probOpt1 alpha p0 r)]
      rfl

/-- Dropping the last scanned belief removes exactly the contribution
of the last trial. -/
lemma scanProb_concat_dropLast {K : Type} [CommRing K] (alpha : K)
    (xs : List K) (p0 a : K) :
    (scanProb alpha p0 (xs ++ [a])).dropLast = scanProb alpha p0 xs := by
  rw [scanProb_append alpha xs [a] p0]
  show (scanProb alpha p0 xs ++ [_]).dropLast = _
  rw [List.dropLast_concat]

/-- C10.  Two inputs to `loss_RL_model` that are identical except in
the last element of `rewarded1` yield exactly the same loss: the
trajectory is lagged by one trial and its last scanned element is
discarded, so the final trial's outcome never influences the loss. -/
theorem loss_RL_model_ignores_last_outcome (xs : List ℝ) (a b : ℝ)
    (m1 m2 ch : List ℝ) (alpha beta p0 : ℝ) (U : ℝ → ℝ → ℝ) :
    loss_RL_model (xs ++ [a]) m1 m2 ch alpha beta p0 U =
      loss_RL_model (xs ++ [b]) m1 m2 ch alpha beta p0 U := by
  simp only [loss_RL_model, probOpt1_of]
  rw [scanProb_concat_dropLast alpha xs p0 a, scanProb_concat_dropLast alpha xs p0 b]

/-! ## Lemmas about the IEEE ordering and `argmin` -/

/-- The IEEE strict order is irreflexive. -/
lemma Fl.lt_irrefl (a : Fl) : Fl.lt a a = false := by
  cases a <;> simp [Fl.lt]

/-- The IEEE strict order is asymmetric. -/
lemma Fl.lt_asymm {a b : Fl} (h : Fl.lt a b = true) : Fl.lt b a = false := by
  cases a <;> cases b <;> simp [Fl.lt] at h ⊢ <;> linarith

/-- Transitivity of the reflexive closure through a non-NaN middle
value. -/
lemma Fl.not_lt_trans {a b c : Fl} (hb : b.isNaN = false)
    (hab : Fl.lt a b = false) (hbc : Fl.lt b c = false) :
    Fl.lt a c = false := by
  cases a <;> cases b <;> cases c <;>
    simp [Fl.lt, Fl.isNaN] at hb hab hbc ⊢ <;> linarith

/-- On a nonempty list, `argmin` returns a valid index. -/
lemma argmin_lt_length : ∀ (l : List Fl), l ≠ [] → argmin l < l.length := by
  intro l
  induction l with
  | nil => intro h; exact absurd rfl h
  | cons x xs ih =>
      intro _
      show argmin (x :: xs) < xs.length + 1
      unfold argmin
      by_cases hcond : Fl.lt (xs.getD (argmin xs) Fl.nan) x = true
      · rw [if_pos hcond]
        have hxs : xs ≠ [] := by
          rintro rfl
          simp [Fl.lt] at hcond
        exact Nat.succ_lt_succ (ih hxs)
      · rw [if_neg hcond]
        omega

/-- A `getD` at a valid index is a member of the list. -/
lemma getD_mem {α : Type} (l : List α) (d : α) (i : ℕ) (h : i < l.length) :
    l.getD i d ∈ l := by
  rw [List.getD_eq_getElem?_getD, List.getElem?_eq_getElem h]
  exact List.getElem_mem h

/-- On a NaN-free list, the value at `argmin` is minimal: no element is
strictly below it. -/
lemma argmin_is_min : ∀ (l : List Fl), (∀ y ∈ l, y.isNaN = false) →
    ∀ i < l.length, Fl.lt (l.getD i Fl.nan) (l.getD (argmin l) Fl.nan) = false := by
  intro l
  induction l with
  | nil => intro _ i hi; exact absurd hi (by simp)
  | cons x xs ih =>
      intro hnn i hi
      have hxs : ∀ y ∈ xs, y.isNaN = false :=
        fun y hy => hnn y (List.mem_cons_of_mem x hy)
      show Fl.lt ((x :: xs).getD i Fl.nan) ((x :: xs).getD (argmin (x :: xs)) Fl.nan) = false
      unfold argmin
      by_cases hcond : Fl.lt (xs.getD (argmin xs) Fl.nan) x = true
      · rw [if_pos hcond]
        cases i with
        | zero =>
            show Fl.lt x (xs.getD (argmin xs) Fl.nan) = false
            exact Fl.lt_asymm hcond
        | succ k =>
            show Fl.lt (xs.getD k Fl.nan) (xs.getD (argmin xs) Fl.nan) = false
            exact ih hxs k (by simpa [Nat.succ_lt_succ_iff] using hi)
      · rw [if_neg hcond]
        cases i with
        | zero => exact Fl.lt_irrefl x
        | succ k =>
            show Fl.lt (xs.getD k Fl.nan) x = false
            have hk : k < xs.length := by simpa [Nat.succ_lt_succ_iff] using hi
            have hxs_ne : xs ≠ [] := by
              rintro rfl
              exact absurd hk (by simp)
            have hjlen : argmin xs < xs.length := argmin_lt_length xs hxs_ne
            have hmid : (xs.getD (argmin xs) Fl.nan).isNaN = false :=
              hxs _ (getD_mem xs Fl.nan (argmin xs) hjlen)
            exact Fl.not_lt_trans hmid (ih hxs k hk)
              (by revert hcond; cases Fl.lt (xs.getD (argmin xs) Fl.nan) x <;> simp)

/-- The masked list is NaN-free. -/
lemma nanToPinf_not_nan (l : List Fl) :
    ∀ y ∈ l.map Fl.nanToPinf, y.isNaN = false := by
  intro y hy
  obtain ⟨x, _, rfl⟩ := List.mem_map.mp hy
  unfold Fl.nanToPinf
  by_cases hx : x.isNaN = true
  · rw [if_pos hx]; rfl
  · rw [if_neg hx]
    revert hx; cases x.isNaN <;> simp

/-- `getD` through a `List.range`-map evaluates the mapped function. -/
lemma getD_map_range {α : Type} (f : ℕ → α) (d : α) (n i : ℕ) (h : i < n) :
    (((List.range n).map f).getD i d) = f i := by
  have hlen : i < ((List.range n).map f).length := by simpa using h
  rw [List.getD_eq_getElem?_getD, List.getElem?_eq_getElem hlen]
  simp

/-! ## Claim C5 -/

/-- C5 (amended).  `fit_with_multiple_initial_values` returns the
parameters of the first run minimizing the loss after NaNs are replaced
by `+∞` (under `-∞ < finite < +∞`).  Whenever at least one run has a
finite loss, the selected run's loss is neither NaN nor `+∞` — but a
run with `-∞` loss (also non-finite) may be selected, which is the one
deviation from the claim as stated. -/
theorem fit_with_multiple_initial_values_selects_min {P : Type} (dflt : P)
    (runFit : TrialBatchQ → ℕ → P × Fl) (data : TrialBatchQ) (nInits : ℕ)
    (hfin : ∃ i, i < nInits ∧ ∃ q : ℚ, (runFit data i).2 = Fl.finite q) :
    ∃ j, j < nInits ∧
      fit_with_multiple_initial_values dflt runFit data nInits = (runFit data j).1 ∧
      ((runFit data j).2).isNaN = false ∧
      (runFit data j).2 ≠ Fl.pinf ∧
      ∀ i, i < nInits →
        Fl.lt (Fl.nanToPinf ((runFit data i).2))
          (Fl.nanToPinf ((runFit data j).2)) = false := by
  obtain ⟨i0, hi0, q0, hq0⟩ := hfin
  set L : List Fl := (List.range nInits).map (fun i => (runFit data i).2) with hL
  have hLlen : L.length = nInits := by simp [hL]
  have hLget : ∀ i, i < nInits → L.getD i Fl.nan = (runFit data i).2 := by
    intro i hi
    rw [hL]
    exact getD_map_range (fun i => (runFit data i).2) Fl.nan nInits i hi
  have hnotall : L.all Fl.isNaN = false := by
    rcases hall : L.all Fl.isNaN with _ | _
    · rfl
    · exfalso
      have := (List.all_eq_true.mp hall) ((runFit data i0).2)
        (by rw [hL]; exact List.mem_map.mpr ⟨i0, List.mem_range.mpr hi0, rfl⟩)
      rw [hq0] at this
      simp [Fl.isNaN] at this
  set M : List Fl := L.map Fl.nanToPinf with hM
  have hMlen : M.length = nInits := by simp [hM, hLlen]
  have hMne : M ≠ [] := by
    intro hemp
    have hz : (0 : ℕ) = nInits := by rw [← hMlen, hemp]; rfl
    omega
  set j := argmin M with hj
  have hjlt : j < nInits := by
    have := argmin_lt_length M hMne
    omega
  have hMget : ∀ i, i < nInits → M.getD i Fl.nan = Fl.nanToPinf ((runFit data i).2) := by
    intro i hi
    rw [hM, hL, List.map_map]
    exact getD_map_range _ Fl.nan nInits i hi
  have hmin : ∀ i, i < nInits →
      Fl.lt (Fl.nanToPinf ((runFit data i).2)) (Fl.nanToPinf ((runFit data j).2)) = false := by
    intro i hi
    have := argmin_is_min M (nanToPinf_not_nan L) i (by omega)
    rw [hMget i hi, hMget j hjlt] at this
    exact this
  have hnarg : nanargmin L = (j : ℤ) := by
    unfold nanargmin
    rw [hnotall]
    simp [hM, hj]
  have hjval : Fl.nanToPinf ((runFit data j).2) ≠ Fl.pinf := by
    intro hpinf
    have hlt := hmin i0 hi0
    rw [hpinf, hq0] at hlt
    simp [Fl.nanToPinf, Fl.isNaN, Fl.lt] at hlt
  have hjnan : ((runFit data j).2).isNaN = false := by
    rcases hcase : ((runFit data j).2).isNaN with _ | _
    · rfl
    · exfalso
      apply hjval
      unfold Fl.nanToPinf
      rw [if_pos hcase]
  have hjpinf : (runFit data j).2 ≠ Fl.pinf := by
    intro hp
    apply hjval
    rw [hp]
    rfl
  refine ⟨j, hjlt, ?_, hjnan, hjpinf, hmin⟩
  unfold fit_with_multiple_initial_values get_params
  have hloss : ((List.range nInits).map (runFit data)).map (fun r => r.2) = L := by
    rw [hL, List.map_map]
    rfl
  rw [hloss, hnarg]
  unfold jnp_take
  rw [if_pos (by omega : (0 : ℤ) ≤ (j : ℤ))]
  have : ((List.range nInits).map (runFit data)).map (fun r => r.1) =
      (List.range nInits).map (fun i => (runFit data i).1) := by
    rw [List.map_map]
    rfl
  rw [this]
  have hjj : ((j : ℤ)).toNat = j := by omega
  rw [hjj]
  exact getD_map_range (fun i => (runFit data i).1) dflt nInits j hjlt

/-- C5 witness: two runs with losses `[-∞, 0]`; run 0 is selected (it
is the minimum), its loss is neither NaN nor `+∞`. -/
theorem fit_with_multiple_initial_values_selects_min_witness :
    (0 < 2 ∧ (((fun (_ : TrialBatchQ) (i : ℕ) =>
        ((if i = 0 then ((3 : ℚ), (0 : ℚ)) else ((5 : ℚ), 0)),
          if i = 0 then Fl.ninf else Fl.finite 0)) ⟨[], [], [], []⟩ 1).2 = Fl.finite 0)) ∧
      ∃ j, j < 2 ∧
        fit_with_multiple_initial_values ((0 : ℚ), (0 : ℚ))
          (fun (_ : TrialBatchQ) (i : ℕ) =>
            ((if i = 0 then ((3 : ℚ), (0 : ℚ)) else ((5 : ℚ), 0)),
              if i = 0 then Fl.ninf else Fl.finite 0)) ⟨[], [], [], []⟩ 2 =
          ((fun (_ : TrialBatchQ) (i : ℕ) =>
            ((if i = 0 then ((3 : ℚ), (0 : ℚ)) else ((5 : ℚ), 0)),
              if i = 0 then Fl.ninf else Fl.finite 0)) ⟨[], [], [], []⟩ j).1 ∧
        (((fun (_ : TrialBatchQ) (i : ℕ) =>
            ((if i = 0 then ((3 : ℚ), (0 : ℚ)) else ((5 : ℚ), 0)),
              if i = 0 then Fl.ninf else Fl.finite 0)) ⟨[], [], [], []⟩ j).2).isNaN = false ∧
        ((fun (_ : TrialBatchQ) (i : ℕ) =>
            ((if i = 0 then ((3 : ℚ), (0 : ℚ)) else ((5 : ℚ), 0)),
              if i = 0 then Fl.ninf else Fl.finite 0)) ⟨[], [], [], []⟩ j).2 ≠ Fl.pinf ∧
        ∀ i, i < 2 →
          Fl.lt (Fl.nanToPinf (((fun (_ : TrialBatchQ) (i : ℕ) =>
              ((if i = 0 then ((3 : ℚ), (0 : ℚ)) else ((5 : ℚ), 0)),
                if i = 0 then Fl.ninf else Fl.finite 0)) ⟨[], [], [], []⟩ i).2))
            (Fl.nanToPinf (((fun (_ : TrialBatchQ) (i : ℕ) =>
              ((if i = 0 then ((3 : ℚ), (0 : ℚ)) else ((5 : ℚ), 0)),
                if i = 0 then Fl.ninf else Fl.finite 0)) ⟨[], [], [], []⟩ j).2)) = false :=
  ⟨⟨by omega, by decide⟩,
    fit_with_multiple_initial_values_selects_min ((0 : ℚ), (0 : ℚ))
      (fun _ i => ((if i = 0 then ((3 : ℚ), (0 : ℚ)) else ((5 : ℚ), 0)),
        if i = 0 then Fl.ninf else Fl.finite 0)) ⟨[], [], [], []⟩ 2
      ⟨1, by omega, 0, by decide⟩⟩

/-- C5 counterexample to the claim as stated.  With losses `[-∞, 0]`
(run 1 finite), `jnp.nanargmin` selects run 0, whose loss `-∞` is
non-finite: the returned parameters are those of a non-finite-loss run
even though a finite-loss run exists, contradicting "never those of a
run with non-finite loss". -/
theorem fit_with_multiple_initial_values_ninf_counterexample :
    fit_with_multiple_initial_values ((0 : ℚ), (0 : ℚ))
        (fun (_ : TrialBatchQ) (i : ℕ) =>
          ((if i = 0 then ((3 : ℚ), (0 : ℚ)) else ((5 : ℚ), 0)),
            if i = 0 then Fl.ninf else Fl.finite 0)) ⟨[], [], [], []⟩ 2 =
      ((3 : ℚ), 0) ∧
    ((3 : ℚ), (0 : ℚ)) ≠ ((5 : ℚ), 0) := by
  decide

/-! ## Claim C6 -/

/-- C6 (amended).  When every one of the `nInits` runs has NaN loss,
`jnp.nanargmin` returns the sentinel `-1`, and indexing with `-1`
silently wraps to the last run: the function returns the plain
parameter vector of run `nInits - 1`, with no error and no sentinel in
the returned value.  Independently of losses, each subject's result in
`fit_multiple_participants` is computed from that subject's data alone,
so one subject's degenerate fit does not disturb the others. -/
theorem fit_all_nan_returns_last_run {P : Type} (dflt : P)
    (runFit : TrialBatchQ → ℕ → P × Fl) (data : TrialBatchQ) (nInits : ℕ)
    (hn : 1 ≤ nInits)
    (hnan : ∀ i, i < nInits → ((runFit data i).2).isNaN = true) :
    fit_with_multiple_initial_values dflt runFit data nInits =
        (runFit data (nInits - 1)).1 ∧
      ∀ (datas : List TrialBatchQ) (j : ℕ), j < datas.length →
        (fit_multiple_participants dflt runFit datas nInits).getD j dflt =
          fit_with_multiple_initial_values dflt runFit
            (datas.getD j ⟨[], [], [], []⟩) nInits := by
  constructor
  · unfold fit_with_multiple_initial_values get_params
    have hloss : ((List.range nInits).map (runFit data)).map (fun r => r.2) =
        (List.range nInits).map (fun i => (runFit data i).2) := by
      rw [List.map_map]
      rfl
    have hall : ((List.range nInits).map (fun i => (runFit data i).2)).all Fl.isNaN = true := by
      rw [List.all_eq_true]
      intro x hx
      obtain ⟨i, hi, rfl⟩ := List.mem_map.mp hx
      exact hnan i (List.mem_range.mp hi)
    have hnarg : nanargmin ((List.range nInits).map (fun i => (runFit data i).2)) = -1 := by
      unfold nanargmin
      rw [hall]
      rfl
    rw [hloss, hnarg]
    unfold jnp_take
    rw [if_neg (by omega : ¬(0 : ℤ) ≤ -1)]
    have hparams : ((List.range nInits).map (runFit data)).map (fun r => r.1) =
        (List.range nInits).map (fun i => (runFit data i).1) := by
      rw [List.map_map]
      rfl
    rw [hparams]
    have hlen : ((List.range nInits).map (fun i => (runFit data i).1)).length = nInits := by
      simp
    rw [hlen]
    rw [show (-(-1 : ℤ)).toNat = 1 from rfl]
    exact getD_map_range (fun i => (runFit data i).1) dflt nInits (nInits - 1) (by omega)
  · intro datas j hj
    unfold fit_multiple_participants
    have hlen2 : j < (datas.map (fun d =>
        fit_with_multiple_initial_values dflt runFit d nInits)).length := by
      simpa using hj
    rw [List.getD_eq_getElem?_getD, List.getElem?_eq_getElem hlen2,
      List.getD_eq_getElem?_getD, List.getElem?_eq_getElem hj]
    simp

/-- C6 witness: two runs, both NaN losses, distinct parameter vectors;
the function returns run 1's parameters. -/
theorem fit_all_nan_returns_last_run_witness :
    (∀ i, i < 2 → (((fun (_ : TrialBatchQ) (i : ℕ) =>
        ((if i = 0 then ((3 : ℚ), (0 : ℚ)) else ((5 : ℚ), 0)), Fl.nan))
          ⟨[], [], [], []⟩ i).2).isNaN = true) ∧
      fit_with_multiple_initial_values ((0 : ℚ), (0 : ℚ))
          (fun (_ : TrialBatchQ) (i : ℕ) =>
            ((if i = 0 then ((3 : ℚ), (0 : ℚ)) else ((5 : ℚ), 0)), Fl.nan))
          ⟨[], [], [], []⟩ 2 =
        ((fun (_ : TrialBatchQ) (i : ℕ) =>
            ((if i = 0 then ((3 : ℚ), (0 : ℚ)) else ((5 : ℚ), 0)), Fl.nan))
          ⟨[], [], [], []⟩ (2 - 1)).1 :=
  ⟨fun _ _ => rfl,
    (fit_all_nan_returns_last_run ((0 : ℚ), (0 : ℚ))
      (fun _ i => ((if i = 0 then ((3 : ℚ), (0 : ℚ)) else ((5 : ℚ), 0)), Fl.nan))
      ⟨[], [], [], []⟩ 2 (by omega) (fun _ _ => rfl)).1⟩

/-- C6 counterexample to the claim as stated.  Both runs have NaN loss,
yet the function silently returns run 1's ordinary parameter vector
`(5, 0)` — no sentinel is surfaced and no error is raised (the function
is total). -/
theorem fit_all_nan_counterexample :
    fit_with_multiple_initial_values ((0 : ℚ), (0 : ℚ))
        (fun (_ : TrialBatchQ) (i : ℕ) =>
          ((if i = 0 then ((3 : ℚ), (0 : ℚ)) else ((5 : ℚ), 0)), Fl.nan))
        ⟨[], [], [], []⟩ 2 = ((5 : ℚ), 0) ∧
      ((5 : ℚ), (0 : ℚ)) ≠ ((0 : ℚ), 0) := by
  decide

/-! ## Lemmas about the recovery loop -/

/-- `getD` on the left part of an append. -/
lemma getD_append_left {α : Type} (l1 l2 : List α) (d : α) (i : ℕ)
    (h : i < l1.length) : (l1 ++ l2).getD i d = l1.getD i d := by
  rw [List.getD_eq_getElem?_getD, List.getD_eq_getElem?_getD,
    List.getElem?_append_left h]

/-- `getD` on the right part of an append. -/
lemma getD_append_right {α : Type} (l1 l2 : List α) (d : α) (i : ℕ)
    (h : l1.length ≤ i) : (l1 ++ l2).getD i d = l2.getD (i - l1.length) d := by
  rw [List.getD_eq_getElem?_getD, List.getD_eq_getElem?_getD,
    List.getElem?_append_right h]

/-- Peeling the last value of the outer loop. -/
lemma loopPairs_succ (A B : ℕ) :
    loopPairs (A + 1) B = loopPairs A B ++ (List.range B).map (fun b => (A, b)) := by
  unfold loopPairs
  rw [List.range_succ, List.flatMap_append]
  simp

/-- The nested loop visits `A * B` pairs. -/
lemma loopPairs_length (A B : ℕ) : (loopPairs A B).length = A * B := by
  induction A with
  | zero => simp [loopPairs]
  | succ a ih =>
      rw [loopPairs_succ, List.length_append, ih]
      simp [Nat.succ_mul]

/-- The `c`-th visited pair is `(c / B, c % B)`: the outer index is the
alpha position, the inner index the beta position. -/
lemma loopPairs_getD (B : ℕ) :
    ∀ (A c : ℕ), c < A * B → (loopPairs A B).getD c (0, 0) = (c / B, c % B) := by
  intro A
  induction A with
  | zero => intro c hc; exact absurd hc (by simp)
  | succ a ih =>
      intro c hc
      rw [loopPairs_succ]
      by_cases hlow : c < a * B
      · rw [getD_append_left _ _ _ _ (by rw [loopPairs_length]; exact hlow)]
        exact ih c hlow
      · have hs : (a + 1) * B = a * B + B := by ring
        have hB : 0 < B := by omega
        have hr : c - a * B < B := by omega
        have hcomm : B * a = a * B := Nat.mul_comm B a
        have hc2 : c = (c - a * B) + B * a := by omega
        rw [getD_append_right _ _ _ _ (by rw [loopPairs_length]; omega)]
        rw [loopPairs_length]
        rw [getD_map_range (fun b => (a, b)) (0, 0) B (c - a * B) hr]
        have hdiv : c / B = a := by
          conv_lhs => rw [hc2]
          rw [Nat.add_mul_div_left _ _ hB, Nat.div_eq_of_lt hr]
          omega
        have hmod : c % B = c - a * B := by
          conv_lhs => rw [hc2]
          rw [Nat.add_mul_mod_self_left, Nat.mod_eq_of_lt hr]
        rw [hdiv, hmod]

/-- The counter-threaded loop produces one record per pair. -/
lemma recovery_sim_go_length (o : RecoveryOracles) (aR bR : List ℚ) :
    ∀ (ps : List (ℕ × ℕ)) (c : ℕ),
      (recovery_sim_go o aR bR c ps).length = ps.length := by
  intro ps
  induction ps with
  | nil => intro c; rfl
  | cons p rest ih => intro c; simp [recovery_sim_go, ih]

/-- The record at position `i` of the counter-threaded loop was built
at counter `c + i` from the `i`-th pair. -/
lemma recovery_sim_go_getD (o : RecoveryOracles) (aR bR : List ℚ)
    (dflt : (ℚ × ℚ) × TrialBatchQ) :
    ∀ (ps : List (ℕ × ℕ)) (c i : ℕ), i < ps.length →
      (recovery_sim_go o aR bR c ps).getD i dflt =
        recovery_iter o aR bR (c + i) (ps.getD i (0, 0)).1 (ps.getD i (0, 0)).2 := by
  intro ps
  induction ps with
  | nil => intro c i hi; exact absurd hi (by simp)
  | cons p rest ih =>
      intro c i hi
      cases i with
      | zero => simp [recovery_sim_go]
      | succ k =>
          show (recovery_sim_go o aR bR (c + 1) rest).getD k dflt = _
          rw [ih (c + 1) k (by simpa [Nat.succ_lt_succ_iff] using hi)]
          have : c + 1 + k = c + (k + 1) := by omega
          rw [this]
          rfl

/-- `getD` through a `zipWith` at a valid index. -/
lemma getD_zipWith {α β γ : Type} (f : α → β → γ) (d1 : α) (d2 : β) (d3 : γ) :
    ∀ (l1 : List α) (l2 : List β) (i : ℕ), i < l1.length → i < l2.length →
      (List.zipWith f l1 l2).getD i d3 = f (l1.getD i d1) (l2.getD i d2) := by
  intro l1
  induction l1 with
  | nil => intro l2 i h1 _; exact absurd h1 (by simp)
  | cons a t ih =>
      intro l2 i h1 h2
      cases l2 with
      | nil => exact absurd h2 (by simp)
      | cons b s =>
          cases i with
          | zero => rfl
          | succ k =>
              show (List.zipWith f t s).getD k d3 = _
              exact ih s k (by simpa [Nat.succ_lt_succ_iff] using h1)
                (by simpa [Nat.succ_lt_succ_iff] using h2)

/-- `getD` through a `map` at a valid index. -/
lemma getD_map {α β : Type} (f : α → β) (d1 : α) (d2 : β) :
    ∀ (l : List α) (i : ℕ), i < l.length →
      (l.map f).getD i d2 = f (l.getD i d1) := by
  intro l
  induction l with
  | nil => intro i hi; exact absurd hi (by simp)
  | cons a t ih =>
      intro i hi
      cases i with
      | zero => rfl
      | succ k =>
          show (t.map f).getD k d2 = _
          exact ih k (by simpa [Nat.succ_lt_succ_iff] using hi)

/-! ## Claim C9 -/

/-- C9.  The recovery table has exactly `A * B` rows, one per grid
point of the cross product with alpha as the outer loop and beta as the
inner loop; the row at counter position `c` records
`simulatedAlpha = simulatedAlphaRange[c / B]`,
`simulatedBeta = simulatedBetaRange[c % B]`, and its recovered columns
are the population fit of exactly the `TrialBatch` simulated at counter
`c` from that same grid point — no permutation or misalignment. -/
theorem run_paramterer_recovery_grid_aligned (o : RecoveryOracles)
    (runFit : TrialBatchQ → ℕ → (ℚ × ℚ) × Fl)
    (simulatedAlphaRange simulatedBetaRange : List ℚ) (nInits : ℕ) :
    (run_paramterer_recovery o runFit simulatedAlphaRange simulatedBetaRange nInits).length =
        simulatedAlphaRange.length * simulatedBetaRange.length ∧
      ∀ c, c < simulatedAlphaRange.length * simulatedBetaRange.length →
        (run_paramterer_recovery o runFit simulatedAlphaRange simulatedBetaRange
            nInits).getD c default =
          { simulatedAlpha :=
              simulatedAlphaRange.getD (c / simulatedBetaRange.length) 0,
            simulatedBeta :=
              simulatedBetaRange.getD (c % simulatedBetaRange.length) 0,
            recoveredAlpha := (fit_with_multiple_initial_values (0, 0) runFit
              ((recovery_iter o simulatedAlphaRange simulatedBetaRange c
                (c / simulatedBetaRange.length) (c % simulatedBetaRange.length)).2)
              nInits).1,
            recoveredBeta := (fit_with_multiple_initial_values (0, 0) runFit
              ((recovery_iter o simulatedAlphaRange simulatedBetaRange c
                (c / simulatedBetaRange.length) (c % simulatedBetaRange.length)).2)
              nInits).2 } := by
  set A := simulatedAlphaRange.length with hA
  set B := simulatedBetaRange.length with hB
  have hsimlen : (recovery_sim o simulatedAlphaRange simulatedBetaRange).length = A * B := by
    unfold recovery_sim
    rw [recovery_sim_go_length, loopPairs_length]
  have hsimget : ∀ c, c < A * B →
      (recovery_sim o simulatedAlphaRange simulatedBetaRange).getD c
          ((0, 0), ⟨[], [], [], []⟩) =
        recovery_iter o simulatedAlphaRange simulatedBetaRange c (c / B) (c % B) := by
    intro c hc
    unfold recovery_sim
    rw [recovery_sim_go_getD o _ _ _ _ 0 c (by rw [loopPairs_length]; exact hc),
      loopPairs_getD B A c hc]
    simp
  constructor
  · unfold run_paramterer_recovery fit_multiple_participants
    simp [hsimlen]
  · intro c hc
    unfold run_paramterer_recovery fit_multiple_participants
    rw [getD_zipWith _ ((0, 0), (⟨[], [], [], []⟩ : TrialBatchQ)) (0, 0) default _ _ c
        (by rw [hsimlen]; exact hc)
        (by simp only [List.length_map]; rw [hsimlen]; exact hc),
      getD_map (fun data => fit_with_multiple_initial_values (0, 0) runFit data nInits)
        (⟨[], [], [], []⟩ : TrialBatchQ) (0, 0) _ c
        (by simp only [List.length_map]; rw [hsimlen]; exact hc),
      getD_map (fun r => r.2) ((0, 0), (⟨[], [], [], []⟩ : TrialBatchQ))
        (⟨[], [], [], []⟩ : TrialBatchQ) _ c (by rw [hsimlen]; exact hc),
      hsimget c hc]
    rfl

end RLFit
